import Mathlib

/-!
Verification development for `memory-lru` (paritytech/memory-lru):
a memory-bounded LRU cache (`src/lib.rs`) layered over a recency-ordered
key/value store. The store itself is the `lru` crate, an external
collaborator; it is modelled here from the specification of its five
operations, while `MemoryLruCache` and its methods are translated directly
from `src/lib.rs`.
-/

set_option linter.unusedSectionVars false

namespace MemoryLru

/-- Upper bound of Rust `usize` values (the crate targets 64-bit hosts). -/
def USIZE_MAX : Nat := 2 ^ 64 - 1

/-- Rust `usize::saturating_mul`: multiplication that saturates at
`usize::MAX` instead of wrapping. -/
def saturating_mul (a b : Nat) : Nat := min (a * b) USIZE_MAX

/-- The `ResidentSize` trait (src/lib.rs lines 31-35): a cached value
reports the number of bytes it keeps resident. -/
class ResidentSize (V : Type) where
  resident_size : V → Nat

export ResidentSize (resident_size)

/-- Resident size of a byte vector, as in the crate's tests
(`impl ResidentSize for Vec<u8>` returns the length). -/
instance : ResidentSize (List Nat) := ⟨List.length⟩

/-- Value stored under the first occurrence of key `k` in an association
list. -/
def lookup {K V : Type} [DecidableEq K] (k : K) : List (K × V) → Option V
  | [] => none
  | (k2, v) :: rest => if k2 = k then some v else lookup k rest

/-- Remove the first entry stored under key `k`. -/
def eraseKey {K V : Type} [DecidableEq K] (k : K) : List (K × V) → List (K × V)
  | [] => []
  | (k2, v) :: rest => if k2 = k then rest else (k2, v) :: eraseKey k rest

/-- Modelled from the spec: the external RecencyStore collaborator (the
`lru` crate's `LruCache`, declared out of scope by spec section 1), an
ordered key-to-value container. `entries` is kept most-recently-used
first; `cap` is the item-count capacity, distinct from the byte budget. -/
structure LruCache (K V : Type) where
  entries : List (K × V)
  cap : Nat

namespace LruCache

variable {K V : Type} [DecidableEq K]

/-- Number of stored entries. -/
def len (c : LruCache K V) : Nat := c.entries.length

/-- Membership test; does not promote recency. -/
def contains (c : LruCache K V) (k : K) : Bool := (lookup k c.entries).isSome

/-- Lookup without promoting recency. -/
def peek (c : LruCache K V) (k : K) : Option V := lookup k c.entries

/-- Lookup that promotes the hit entry to most-recently-used. -/
def get (c : LruCache K V) (k : K) : Option V × LruCache K V :=
  match lookup k c.entries with
  | none => (none, c)
  | some v => (some v, { c with entries := (k, v) :: eraseKey k c.entries })

/-- Insert or replace, promoting the key to most-recently-used. Returns
the displaced value: the old value when the key was already present, or
the least-recently-used entry's value when the store was at item
capacity (spec section 2: put "returns displaced value if a different
key was evicted due to capacity"). -/
def put (c : LruCache K V) (k : K) (v : V) : Option V × LruCache K V :=
  match lookup k c.entries with
  | some old => (some old, { c with entries := (k, v) :: eraseKey k c.entries })
  | none =>
    if c.entries.length = c.cap then
      (c.entries.getLast?.map Prod.snd, { c with entries := (k, v) :: c.entries.dropLast })
    else
      (none, { c with entries := (k, v) :: c.entries })

/-- Pop the least-recently-used entry, returning it together with the
shrunken store, or nothing when the store is empty. -/
def pop_lru (c : LruCache K V) : Option ((K × V) × LruCache K V) :=
  match c.entries.getLast? with
  | none => none
  | some e => some (e, { c with entries := c.entries.dropLast })

/-- Change the item-count capacity (the cache only ever grows it). -/
def resize (c : LruCache K V) (n : Nat) : LruCache K V := { c with cap := n }

/-- Whether the store holds no entries. -/
def is_empty (c : LruCache K V) : Bool := c.entries.isEmpty

end LruCache

/-- The memory-bounded cache (src/lib.rs lines 38-42): the store, the
running byte total `cur_size`, and the fixed byte budget `max_size`. -/
structure MemoryLruCache (K V : Type) where
  inner : LruCache K V
  cur_size : Nat
  max_size : Nat

/-- Initial item-count capacity (src/lib.rs line 28). -/
def INITIAL_CAPACITY : Nat := 4

namespace MemoryLruCache

variable {K V : Type} [DecidableEq K] [ResidentSize V]

/-- `MemoryLruCache::new` (src/lib.rs lines 46-52). -/
def new (max_size : Nat) : MemoryLruCache K V :=
  { inner := { entries := [], cap := INITIAL_CAPACITY }
    cur_size := 0
    max_size := max_size }

/-- The body of the `readjust_down` while loop (src/lib.rs lines 128-136),
with an explicit iteration bound: each iteration pops one entry, so
`entries.length` iterations always suffice, and `readjust_down` supplies
exactly that much fuel, making this fueled loop equal to the source's
unbounded `while`. -/
def readjust_loop : Nat → MemoryLruCache K V → MemoryLruCache K V
  | 0, m => m
  | fuel + 1, m =>
    if m.cur_size ≤ m.max_size then m
    else
      match m.inner.pop_lru with
      | some (e, inner2) =>
        readjust_loop fuel
          { m with inner := inner2, cur_size := m.cur_size - resident_size e.2 }
      | none => m

/-- `readjust_down` (src/lib.rs lines 128-136): remove least-recently-used
entries until the running total is within budget or the store is empty. -/
def readjust_down (m : MemoryLruCache K V) : MemoryLruCache K V :=
  readjust_loop m.inner.entries.length m

/-- First statement of `insert` (src/lib.rs lines 56-65): when the store
is at full item-count capacity, double that capacity with saturating
multiplication and grow the store. -/
def grow_if_full (m : MemoryLruCache K V) : MemoryLruCache K V :=
  if m.inner.len = m.inner.cap then
    { m with inner := m.inner.resize (saturating_mul m.inner.cap 2) }
  else m

/-- Second statement of `insert` (src/lib.rs line 67): add the new
value's resident size to the running total. -/
def add_size (m : MemoryLruCache K V) (val : V) : MemoryLruCache K V :=
  { m with cur_size := m.cur_size + resident_size val }

/-- Third statement of `insert` (src/lib.rs lines 70-72): put the pair
into the store and subtract the resident size of any displaced value. -/
def apply_put (m : MemoryLruCache K V) (key : K) (val : V) : MemoryLruCache K V :=
  match m.inner.put key val with
  | (some lru, inner2) =>
    { m with inner := inner2, cur_size := m.cur_size - resident_size lru }
  | (none, inner2) => { m with inner := inner2 }

/-- The state of `insert` just before its final `readjust_down` call:
the first three statements of src/lib.rs lines 55-75 in source order. -/
def insert_pre (m : MemoryLruCache K V) (key : K) (val : V) : MemoryLruCache K V :=
  apply_put (add_size (grow_if_full m) val) key val

/-- `insert` (src/lib.rs lines 55-75). -/
def insert (m : MemoryLruCache K V) (key : K) (val : V) : MemoryLruCache K V :=
  readjust_down (insert_pre m key val)

/-- `get` (src/lib.rs lines 79-81): promoting lookup. The Rust method
borrows `&mut self` and returns `Option<&V>`; here it returns the value
together with the updated cache. -/
def get (m : MemoryLruCache K V) (key : K) : Option V × MemoryLruCache K V :=
  let r := m.inner.get key
  (r.1, { m with inner := r.2 })

/-- `with_mut` (src/lib.rs lines 84-98). The Rust closure receives
`Option<&mut V>`: it may mutate the value in place when the key is
present, and its return value is passed through unchanged, never touching
the cache. The in-place mutation is therefore modelled as a function
`f : V → V` applied when the key is present; `get_mut` promotes the entry
it hits, `prev_size` is read before and `new_size` after the mutation,
and `cur_size` is adjusted by subtracting the former and adding the
latter before the eviction pass runs. When the key is absent both sizes
are zero and only the eviction pass runs. -/
def with_mut (m : MemoryLruCache K V) (key : K) (f : V → V) : MemoryLruCache K V :=
  match lookup key m.inner.entries with
  | none => readjust_down m
  | some v =>
    readjust_down
      { m with
        inner := { m.inner with entries := (key, f v) :: eraseKey key m.inner.entries }
        cur_size := m.cur_size - resident_size v + resident_size (f v) }

/-- `current_size` (src/lib.rs lines 101-103). -/
def current_size (m : MemoryLruCache K V) : Nat := m.cur_size

/-- `len` (src/lib.rs lines 106-108). -/
def len (m : MemoryLruCache K V) : Nat := m.inner.len

/-- `contains` (src/lib.rs lines 112-114): does not update the LRU list. -/
def contains (m : MemoryLruCache K V) (key : K) : Bool := m.inner.contains key

/-- `is_empty` (src/lib.rs lines 117-119). -/
def is_empty (m : MemoryLruCache K V) : Bool := m.inner.is_empty

/-- `peek` (src/lib.rs lines 124-126): like `get` but without promoting. -/
def peek (m : MemoryLruCache K V) (key : K) : Option V := m.inner.peek key

end MemoryLruCache

/-- A public cache operation. Value mutation happens only through
`with_mut`, matching the precondition of invariant I1; the mutation is
the function carried by the `with_mut` constructor. -/
inductive Op (K V : Type) where
  | insert (key : K) (val : V)
  | get (key : K)
  | with_mut (key : K) (f : V → V)
  | peek (key : K)
  | contains (key : K)

/-- Apply one public operation to the cache. `peek` and `contains` take
`&self` in the source and therefore leave the cache unchanged; `get`
borrows `&mut self` and may reorder recency. -/
def applyOp {K V : Type} [DecidableEq K] [ResidentSize V]
    (m : MemoryLruCache K V) : Op K V → MemoryLruCache K V
  | Op.insert k v => m.insert k v
  | Op.get k => (m.get k).2
  | Op.with_mut k f => m.with_mut k f
  | Op.peek _ => m
  | Op.contains _ => m

/-- Run a sequence of public operations from a starting state. -/
def runOps {K V : Type} [DecidableEq K] [ResidentSize V]
    (m : MemoryLruCache K V) (ops : List (Op K V)) : MemoryLruCache K V :=
  ops.foldl applyOp m

/-- Sum of `resident_size` over a list of stored entries. -/
def sizeSum {K V : Type} [ResidentSize V] (l : List (K × V)) : Nat :=
  (l.map (fun e => resident_size e.2)).sum

/-- Invariant I1: `cur_size` equals the sum of resident sizes of the
entries currently in the store. -/
def SizeInv {K V : Type} [ResidentSize V] (m : MemoryLruCache K V) : Prop :=
  m.cur_size = sizeSum m.inner.entries

/-- Resident size of a displaced value returned by `put`, zero if none. -/
def dispSize {V : Type} [ResidentSize V] : Option V → Nat
  | some d => resident_size d
  | none => 0

/-- Instrumented `readjust_down` loop for the underflow claim: `true`
exactly when every subtraction `cur_size -= v.resident_size()` performed
by the loop has subtrahend at most minuend, so that the corresponding
`usize` subtraction cannot underflow. -/
def readjust_ok_loop {K V : Type} [DecidableEq K] [ResidentSize V] :
    Nat → MemoryLruCache K V → Bool
  | 0, _ => true
  | fuel + 1, m =>
    if m.cur_size ≤ m.max_size then true
    else
      match m.inner.pop_lru with
      | some (e, inner2) =>
        decide (resident_size e.2 ≤ m.cur_size) &&
          readjust_ok_loop fuel
            { m with inner := inner2, cur_size := m.cur_size - resident_size e.2 }
      | none => true

/-- Instrumented `readjust_down`, fueled like `readjust_down` itself. -/
def readjust_ok {K V : Type} [DecidableEq K] [ResidentSize V]
    (m : MemoryLruCache K V) : Bool :=
  readjust_ok_loop m.inner.entries.length m

/-- Instrumented third statement of `insert`: checks that the
displaced-value subtraction (src/lib.rs line 71) does not underflow, and
chains into the instrumented eviction pass. -/
def apply_put_ok {K V : Type} [DecidableEq K] [ResidentSize V]
    (m : MemoryLruCache K V) (key : K) (val : V) : Bool :=
  match m.inner.put key val with
  | (some lru, inner2) =>
    decide (resident_size lru ≤ m.cur_size) &&
      readjust_ok { m with inner := inner2, cur_size := m.cur_size - resident_size lru }
  | (none, inner2) => readjust_ok { m with inner := inner2 }

/-- Instrumented `insert`: `true` exactly when neither the subtraction of
the displaced value's size (src/lib.rs line 71) nor any subtraction in
the subsequent eviction pass underflows. -/
def insert_ok {K V : Type} [DecidableEq K] [ResidentSize V]
    (m : MemoryLruCache K V) (key : K) (val : V) : Bool :=
  apply_put_ok (MemoryLruCache.add_size (MemoryLruCache.grow_if_full m) val) key val

/-- Instrumented `with_mut`: `true` exactly when the subtraction of the
previous resident size (src/lib.rs line 92) and every subtraction in the
subsequent eviction pass do not underflow. -/
def with_mut_ok {K V : Type} [DecidableEq K] [ResidentSize V]
    (m : MemoryLruCache K V) (key : K) (f : V → V) : Bool :=
  match lookup key m.inner.entries with
  | none => readjust_ok m
  | some v =>
    decide (resident_size v ≤ m.cur_size) &&
      readjust_ok
        { m with
          inner := { m.inner with entries := (key, f v) :: eraseKey key m.inner.entries }
          cur_size := m.cur_size - resident_size v + resident_size (f v) }

/-- Scenario 2 of spec section 8: budget 8, five keys inserted in order,
each holding a 2-byte value. -/
def scenario2 : MemoryLruCache Nat (List Nat) :=
  MemoryLruCache.insert
    (MemoryLruCache.insert
      (MemoryLruCache.insert
        (MemoryLruCache.insert
          (MemoryLruCache.insert (MemoryLruCache.new 8) 1 [1, 1]) 2 [2, 2]) 3 [3, 3])
      4 [4, 4])
    5 [5, 5]

/-- Concrete state for witnesses: one entry of resident size 1 under key 0,
`cur_size = 1`, budget 10; satisfies invariant I1. -/
def exM1 : MemoryLruCache Nat (List Nat) := ⟨⟨[(0, [7])], 4⟩, 1, 10⟩

/-- Concrete state for witnesses: empty store but `cur_size = 5 > max_size = 1`
(an I1-violating state, used only to exercise the eviction loop's empty-store
exit). -/
def exOver : MemoryLruCache Nat (List Nat) := ⟨⟨[], 4⟩, 5, 1⟩

/-- Concrete state for witnesses: one entry, `cur_size = 5 > max_size = 1`. -/
def exPop : MemoryLruCache Nat (List Nat) := ⟨⟨[(0, [9])], 4⟩, 5, 1⟩

/-- Concrete state for witnesses: empty store whose item capacity sits at
`USIZE_MAX`. -/
def exMaxCap : MemoryLruCache Nat (List Nat) := ⟨⟨[], USIZE_MAX⟩, 0, 0⟩

/-- Three fresh keys inserted in order into a 1-byte budget. -/
def exChain : MemoryLruCache Nat (List Nat) :=
  MemoryLruCache.insert
    (MemoryLruCache.insert (MemoryLruCache.insert (MemoryLruCache.new 1) 0 [0]) 1 [1]) 2 [2]

section Lemmas

variable {K V : Type} [DecidableEq K] [ResidentSize V]

theorem sizeSum_nil : sizeSum ([] : List (K × V)) = 0 := rfl

theorem sizeSum_cons (e : K × V) (l : List (K × V)) :
    sizeSum (e :: l) = resident_size e.2 + sizeSum l := by
  simp [sizeSum]

theorem sizeSum_append (a b : List (K × V)) :
    sizeSum (a ++ b) = sizeSum a + sizeSum b := by
  simp [sizeSum]

theorem sizeSum_eraseKey {k : K} {v : V} :
    ∀ {l : List (K × V)}, lookup k l = some v →
      sizeSum (eraseKey k l) + resident_size v = sizeSum l := by
  intro l
  induction l with
  | nil => intro h; simp [lookup] at h
  | cons e rest ih =>
    obtain ⟨k2, v2⟩ := e
    intro h
    by_cases hk : k2 = k
    · simp only [lookup, if_pos hk, Option.some.injEq] at h
      subst h
      simp only [eraseKey, if_pos hk, sizeSum_cons]
      omega
    · simp only [lookup, if_neg hk] at h
      have := ih h
      simp only [eraseKey, if_neg hk, sizeSum_cons]
      omega

theorem lookup_size_le {k : K} {v : V} {l : List (K × V)}
    (h : lookup k l = some v) : resident_size v ≤ sizeSum l := by
  have := sizeSum_eraseKey h
  omega

theorem sizeSum_getLast {l : List (K × V)} {e : K × V}
    (h : l.getLast? = some e) :
    sizeSum l.dropLast + resident_size e.2 = sizeSum l := by
  have hne : l ≠ [] := by
    intro h0
    rw [h0] at h
    simp at h
  have hl : l.dropLast ++ [l.getLast hne] = l := List.dropLast_append_getLast hne
  have he : l.getLast hne = e := by
    have h2 := List.getLast?_eq_getLast l hne
    rw [h2] at h
    exact Option.some_inj.mp h
  conv_rhs => rw [← hl]
  rw [sizeSum_append, he, sizeSum_cons, sizeSum_nil]
  omega

theorem pop_lru_none {c : LruCache K V} :
    c.pop_lru = none ↔ c.entries = [] := by
  unfold LruCache.pop_lru
  cases hE : c.entries with
  | nil => simp
  | cons a t =>
    rw [List.getLast?_eq_getLast (a :: t) (by simp)]
    simp

theorem pop_lru_some {c : LruCache K V} {e : K × V} {c2 : LruCache K V}
    (h : c.pop_lru = some (e, c2)) :
    c.entries.getLast? = some e ∧ c2.entries = c.entries.dropLast ∧ c2.cap = c.cap := by
  unfold LruCache.pop_lru at h
  cases hg : c.entries.getLast? with
  | none => rw [hg] at h; simp at h
  | some e2 =>
    rw [hg] at h
    simp only [Option.some.injEq, Prod.mk.injEq] at h
    obtain ⟨h1, h2⟩ := h
    subst h1
    rw [← h2]
    exact ⟨rfl, rfl, rfl⟩

open MemoryLruCache in
theorem pop_step_SizeInv {m : MemoryLruCache K V} {e : K × V} {inner2 : LruCache K V}
    (hinv : SizeInv m) (hp : m.inner.pop_lru = some (e, inner2)) :
    SizeInv { m with inner := inner2, cur_size := m.cur_size - resident_size e.2 } := by
  obtain ⟨hg, hE, _⟩ := pop_lru_some hp
  have hs := sizeSum_getLast hg
  show m.cur_size - resident_size e.2 = sizeSum inner2.entries
  rw [hE]
  unfold SizeInv at hinv
  omega

theorem pop_step_length {m : MemoryLruCache K V} {e : K × V} {inner2 : LruCache K V}
    (hp : m.inner.pop_lru = some (e, inner2)) :
    inner2.entries.length + 1 ≤ m.inner.entries.length := by
  obtain ⟨hg, hE, _⟩ := pop_lru_some hp
  have hne : m.inner.entries ≠ [] := by
    intro h0
    rw [h0] at hg
    simp at hg
  have hpos := List.length_pos.mpr hne
  rw [hE, List.length_dropLast]
  omega

open MemoryLruCache in
theorem readjust_loop_id (fuel : Nat) (m : MemoryLruCache K V)
    (h : m.cur_size ≤ m.max_size) : readjust_loop fuel m = m := by
  cases fuel with
  | zero => rfl
  | succ n =>
    unfold readjust_loop
    rw [if_pos h]

open MemoryLruCache in
theorem readjust_loop_max (fuel : Nat) (m : MemoryLruCache K V) :
    (readjust_loop fuel m).max_size = m.max_size := by
  induction fuel generalizing m with
  | zero => rfl
  | succ n ih =>
    unfold readjust_loop
    split
    · rfl
    · split
      · exact ih _
      · rfl

open MemoryLruCache in
theorem readjust_loop_cap (fuel : Nat) (m : MemoryLruCache K V) :
    (readjust_loop fuel m).inner.cap = m.inner.cap := by
  induction fuel generalizing m with
  | zero => rfl
  | succ n ih =>
    unfold readjust_loop
    split
    · rfl
    · split
      · rename_i e inner2 hp
        rw [ih _]
        exact (pop_lru_some hp).2.2
      · rfl

open MemoryLruCache in
theorem readjust_loop_SizeInv (fuel : Nat) (m : MemoryLruCache K V)
    (h : SizeInv m) : SizeInv (readjust_loop fuel m) := by
  induction fuel generalizing m with
  | zero => exact h
  | succ n ih =>
    unfold readjust_loop
    split
    · exact h
    · split
      · rename_i e inner2 hp
        exact ih _ (pop_step_SizeInv h hp)
      · exact h

open MemoryLruCache in
theorem readjust_loop_le (fuel : Nat) (m : MemoryLruCache K V)
    (hinv : SizeInv m) (hfuel : m.inner.entries.length ≤ fuel) :
    (readjust_loop fuel m).cur_size ≤ (readjust_loop fuel m).max_size := by
  induction fuel generalizing m with
  | zero =>
    have hnil : m.inner.entries = [] := List.length_eq_zero.mp (Nat.le_zero.mp hfuel)
    show m.cur_size ≤ m.max_size
    unfold SizeInv at hinv
    rw [hnil, sizeSum_nil] at hinv
    omega
  | succ n ih =>
    unfold readjust_loop
    split
    · rename_i hle
      exact hle
    · rename_i hle
      split
      · rename_i e inner2 hp
        refine ih _ (pop_step_SizeInv hinv hp) ?_
        show inner2.entries.length ≤ n
        have := pop_step_length hp
        omega
      · rename_i hp
        exfalso
        have hnil := pop_lru_none.mp hp
        unfold SizeInv at hinv
        rw [hnil, sizeSum_nil] at hinv
        omega

open MemoryLruCache in
theorem readjust_loop_take (fuel : Nat) (m : MemoryLruCache K V) :
    ∃ n, (readjust_loop fuel m).inner.entries = m.inner.entries.take n := by
  induction fuel generalizing m with
  | zero => exact ⟨m.inner.entries.length, (List.take_length _).symm⟩
  | succ n ih =>
    unfold readjust_loop
    split
    · exact ⟨m.inner.entries.length, (List.take_length _).symm⟩
    · split
      · rename_i e inner2 hp
        obtain ⟨hg, hE, _⟩ := pop_lru_some hp
        obtain ⟨j, hj⟩ :=
          ih { m with inner := inner2, cur_size := m.cur_size - resident_size e.2 }
        refine ⟨min j (m.inner.entries.length - 1), ?_⟩
        rw [hj]
        show inner2.entries.take j = _
        rw [hE, List.dropLast_eq_take, List.take_take]
      · exact ⟨m.inner.entries.length, (List.take_length _).symm⟩

open MemoryLruCache in
theorem readjust_loop_keeps_head (fuel : Nat) (m : MemoryLruCache K V)
    {k : K} {v : V} {rest : List (K × V)}
    (hinv : SizeInv m) (hE : m.inner.entries = (k, v) :: rest)
    (hv : resident_size v ≤ m.max_size) :
    ∃ n, (readjust_loop fuel m).inner.entries = (k, v) :: rest.take n := by
  induction fuel generalizing m rest with
  | zero =>
    refine ⟨rest.length, ?_⟩
    show m.inner.entries = _
    rw [hE, List.take_length]
  | succ n ih =>
    unfold readjust_loop
    split
    · refine ⟨rest.length, ?_⟩
      show m.inner.entries = _
      rw [hE, List.take_length]
    · rename_i hle
      split
      · rename_i e inner2 hp
        obtain ⟨hg, hE2, _⟩ := pop_lru_some hp
        cases hrest : rest with
        | nil =>
          exfalso
          rw [hrest] at hE
          unfold SizeInv at hinv
          rw [hE, sizeSum_cons, sizeSum_nil] at hinv
          simp only at hinv
          omega
        | cons r t =>
          subst hrest
          have hdl : m.inner.entries.dropLast = (k, v) :: (r :: t).dropLast := by
            rw [hE]
            exact List.dropLast_cons₂
          have hEnew : inner2.entries = (k, v) :: (r :: t).dropLast := by
            rw [hE2, hdl]
          obtain ⟨j, hj⟩ :=
            ih { m with inner := inner2, cur_size := m.cur_size - resident_size e.2 }
              (pop_step_SizeInv hinv hp)
              hEnew
              hv
          refine ⟨min j ((r :: t).length - 1), ?_⟩
          rw [hj, List.dropLast_eq_take, List.take_take]
      · rename_i hp
        exfalso
        have hnil := pop_lru_none.mp hp
        rw [hE] at hnil
        simp at hnil

open MemoryLruCache in
theorem readjust_loop_evicts_all (fuel : Nat) (m : MemoryLruCache K V)
    {k : K} {v : V} {rest : List (K × V)}
    (hinv : SizeInv m) (hE : m.inner.entries = (k, v) :: rest)
    (hv : m.max_size < resident_size v) (hfuel : m.inner.entries.length ≤ fuel) :
    (readjust_loop fuel m).inner.entries = [] ∧ (readjust_loop fuel m).cur_size = 0 := by
  induction fuel generalizing m rest with
  | zero =>
    rw [hE] at hfuel
    simp at hfuel
  | succ n ih =>
    have hcur : ¬ m.cur_size ≤ m.max_size := by
      unfold SizeInv at hinv
      rw [hE, sizeSum_cons] at hinv
      simp only at hinv
      omega
    unfold readjust_loop
    rw [if_neg hcur]
    split
    · rename_i e inner2 hp
      obtain ⟨hg, hE2, _⟩ := pop_lru_some hp
      cases hrest : rest with
      | nil =>
        subst hrest
        rw [hE] at hg
        simp only [List.getLast?_singleton, Option.some.injEq] at hg
        subst hg
        unfold SizeInv at hinv
        rw [hE, sizeSum_cons, sizeSum_nil] at hinv
        simp only at hinv
        have hstop : m.cur_size - resident_size (k, v).2 ≤ m.max_size := by
          simp only
          omega
        rw [readjust_loop_id n _ hstop]
        refine ⟨?_, ?_⟩
        · show inner2.entries = []
          rw [hE2, hE]
          rfl
        · show m.cur_size - resident_size (k, v).2 = 0
          simp only
          omega
      | cons r t =>
        subst hrest
        have hdl : m.inner.entries.dropLast = (k, v) :: (r :: t).dropLast := by
          rw [hE]
          exact List.dropLast_cons₂
        have hEnew : inner2.entries = (k, v) :: (r :: t).dropLast := by
          rw [hE2, hdl]
        refine ih _ (pop_step_SizeInv hinv hp) hEnew hv ?_
        show inner2.entries.length ≤ n
        have := pop_step_length hp
        omega
    · rename_i hp
      exfalso
      have hnil := pop_lru_none.mp hp
      rw [hE] at hnil
      simp at hnil

open MemoryLruCache in
theorem readjust_ok_loop_true (fuel : Nat) (m : MemoryLruCache K V)
    (hinv : SizeInv m) : readjust_ok_loop fuel m = true := by
  induction fuel generalizing m with
  | zero => rfl
  | succ n ih =>
    unfold readjust_ok_loop
    split
    · rfl
    · split
      · rename_i e inner2 hp
        rw [Bool.and_eq_true]
        refine ⟨?_, ih _ (pop_step_SizeInv hinv hp)⟩
        apply decide_eq_true
        obtain ⟨hg, hE, _⟩ := pop_lru_some hp
        have hs := sizeSum_getLast hg
        unfold SizeInv at hinv
        omega
      · rfl

open MemoryLruCache in
theorem readjust_down_SizeInv {m : MemoryLruCache K V} (h : SizeInv m) :
    SizeInv (readjust_down m) := readjust_loop_SizeInv _ _ h

open MemoryLruCache in
theorem readjust_down_le {m : MemoryLruCache K V} (h : SizeInv m) :
    (readjust_down m).cur_size ≤ (readjust_down m).max_size :=
  readjust_loop_le _ _ h (le_refl _)

open MemoryLruCache in
theorem readjust_down_max (m : MemoryLruCache K V) :
    (readjust_down m).max_size = m.max_size := readjust_loop_max _ _

open MemoryLruCache in
theorem readjust_down_cap (m : MemoryLruCache K V) :
    (readjust_down m).inner.cap = m.inner.cap := readjust_loop_cap _ _

open MemoryLruCache in
theorem readjust_down_take (m : MemoryLruCache K V) :
    ∃ n, (readjust_down m).inner.entries = m.inner.entries.take n :=
  readjust_loop_take _ _

open MemoryLruCache in
theorem readjust_down_keeps_head {m : MemoryLruCache K V} {k : K} {v : V}
    {rest : List (K × V)} (hinv : SizeInv m)
    (hE : m.inner.entries = (k, v) :: rest) (hv : resident_size v ≤ m.max_size) :
    ∃ n, (readjust_down m).inner.entries = (k, v) :: rest.take n :=
  readjust_loop_keeps_head _ _ hinv hE hv

open MemoryLruCache in
theorem readjust_down_evicts_all {m : MemoryLruCache K V} {k : K} {v : V}
    {rest : List (K × V)} (hinv : SizeInv m)
    (hE : m.inner.entries = (k, v) :: rest) (hv : m.max_size < resident_size v) :
    (readjust_down m).inner.entries = [] ∧ (readjust_down m).cur_size = 0 :=
  readjust_loop_evicts_all _ _ hinv hE hv (le_refl _)

theorem readjust_ok_true {m : MemoryLruCache K V} (hinv : SizeInv m) :
    readjust_ok m = true := readjust_ok_loop_true _ _ hinv

theorem put_inner_cap (c : LruCache K V) (k : K) (v : V) :
    (c.put k v).2.cap = c.cap := by
  unfold LruCache.put
  split
  · rfl
  · split
    · rfl
    · rfl

theorem put_entries_head (c : LruCache K V) (k : K) (v : V) :
    ∃ tl, (c.put k v).2.entries = (k, v) :: tl := by
  unfold LruCache.put
  split
  · exact ⟨_, rfl⟩
  · split
    · exact ⟨_, rfl⟩
    · exact ⟨_, rfl⟩

theorem put_sizeSum (c : LruCache K V) (k : K) (v : V) :
    sizeSum (c.put k v).2.entries + dispSize (c.put k v).1 =
      sizeSum c.entries + resident_size v := by
  unfold LruCache.put
  split
  · rename_i old hl
    have := sizeSum_eraseKey hl
    simp only [dispSize, sizeSum_cons]
    omega
  · rename_i hl
    split
    · rename_i hlen
      cases hg : c.entries.getLast? with
      | none =>
        have hnil : c.entries = [] := by
          cases hE : c.entries with
          | nil => rfl
          | cons a t =>
            rw [hE, List.getLast?_eq_getLast (a :: t) (by simp)] at hg
            simp at hg
        rw [hnil]
        simp [dispSize, sizeSum_cons, sizeSum_nil]
      | some e =>
        have := sizeSum_getLast hg
        simp only [Option.map_some', dispSize, sizeSum_cons]
        omega
    · simp only [dispSize, sizeSum_cons]
      omega

open MemoryLruCache in
theorem apply_put_inner (m : MemoryLruCache K V) (key : K) (val : V) :
    (apply_put m key val).inner = (m.inner.put key val).2 := by
  unfold MemoryLruCache.apply_put
  split
  · rename_i lru inner2 hp
    rw [hp]
  · rename_i inner2 hp
    rw [hp]

open MemoryLruCache in
theorem apply_put_cur (m : MemoryLruCache K V) (key : K) (val : V) :
    (apply_put m key val).cur_size = m.cur_size - dispSize (m.inner.put key val).1 := by
  unfold MemoryLruCache.apply_put
  split
  · rename_i lru inner2 hp
    rw [hp]
    rfl
  · rename_i inner2 hp
    rw [hp]
    simp [dispSize]

open MemoryLruCache in
theorem apply_put_max (m : MemoryLruCache K V) (key : K) (val : V) :
    (apply_put m key val).max_size = m.max_size := by
  unfold MemoryLruCache.apply_put
  split
  · rfl
  · rfl

open MemoryLruCache in
theorem apply_put_SizeInv {m : MemoryLruCache K V} {key : K} {val : V}
    (h : m.cur_size = sizeSum m.inner.entries + resident_size val) :
    SizeInv (apply_put m key val) := by
  unfold SizeInv
  rw [apply_put_cur, apply_put_inner]
  have := put_sizeSum m.inner key val
  omega

open MemoryLruCache in
theorem grow_entries (m : MemoryLruCache K V) :
    (grow_if_full m).inner.entries = m.inner.entries := by
  unfold MemoryLruCache.grow_if_full
  split
  · rfl
  · rfl

open MemoryLruCache in
theorem grow_cur (m : MemoryLruCache K V) :
    (grow_if_full m).cur_size = m.cur_size := by
  unfold MemoryLruCache.grow_if_full
  split
  · rfl
  · rfl

open MemoryLruCache in
theorem grow_max (m : MemoryLruCache K V) :
    (grow_if_full m).max_size = m.max_size := by
  unfold MemoryLruCache.grow_if_full
  split
  · rfl
  · rfl

open MemoryLruCache in
theorem grow_cap (m : MemoryLruCache K V) :
    (grow_if_full m).inner.cap =
      if m.inner.len = m.inner.cap then saturating_mul m.inner.cap 2
      else m.inner.cap := by
  unfold MemoryLruCache.grow_if_full
  split
  · rfl
  · rfl

open MemoryLruCache in
theorem insert_pre_SizeInv {m : MemoryLruCache K V} {key : K} {val : V}
    (h : SizeInv m) : SizeInv (insert_pre m key val) := by
  unfold MemoryLruCache.insert_pre
  apply apply_put_SizeInv
  show (grow_if_full m).cur_size + resident_size val =
    sizeSum (grow_if_full m).inner.entries + resident_size val
  rw [grow_cur, grow_entries]
  unfold SizeInv at h
  omega

open MemoryLruCache in
theorem insert_pre_head (m : MemoryLruCache K V) (key : K) (val : V) :
    ∃ tl, (insert_pre m key val).inner.entries = (key, val) :: tl := by
  unfold MemoryLruCache.insert_pre
  rw [apply_put_inner]
  exact put_entries_head _ _ _

open MemoryLruCache in
theorem insert_pre_max (m : MemoryLruCache K V) (key : K) (val : V) :
    (insert_pre m key val).max_size = m.max_size := by
  unfold MemoryLruCache.insert_pre
  rw [apply_put_max]
  show (grow_if_full m).max_size = m.max_size
  exact grow_max m

open MemoryLruCache in
theorem insert_pre_cap (m : MemoryLruCache K V) (key : K) (val : V) :
    (insert_pre m key val).inner.cap =
      if m.inner.len = m.inner.cap then saturating_mul m.inner.cap 2
      else m.inner.cap := by
  unfold MemoryLruCache.insert_pre
  rw [apply_put_inner, put_inner_cap]
  show (grow_if_full m).inner.cap = _
  exact grow_cap m

open MemoryLruCache in
theorem insert_SizeInv {m : MemoryLruCache K V} {key : K} {val : V}
    (h : SizeInv m) : SizeInv (m.insert key val) :=
  readjust_down_SizeInv (insert_pre_SizeInv h)

open MemoryLruCache in
theorem insert_le {m : MemoryLruCache K V} {key : K} {val : V}
    (h : SizeInv m) :
    (m.insert key val).cur_size ≤ (m.insert key val).max_size :=
  readjust_down_le (insert_pre_SizeInv h)

open MemoryLruCache in
theorem insert_max (m : MemoryLruCache K V) (key : K) (val : V) :
    (m.insert key val).max_size = m.max_size := by
  show (readjust_down (insert_pre m key val)).max_size = m.max_size
  rw [readjust_down_max, insert_pre_max]

open MemoryLruCache in
theorem insert_cap (m : MemoryLruCache K V) (key : K) (val : V) :
    (m.insert key val).inner.cap =
      if m.inner.len = m.inner.cap then saturating_mul m.inner.cap 2
      else m.inner.cap := by
  show (readjust_down (insert_pre m key val)).inner.cap = _
  rw [readjust_down_cap, insert_pre_cap]

theorem LruCache_get_snd_cap (c : LruCache K V) (k : K) :
    (c.get k).2.cap = c.cap := by
  unfold LruCache.get
  split
  · rfl
  · rfl

theorem LruCache_get_entries_none {c : LruCache K V} {k : K}
    (h : lookup k c.entries = none) : (c.get k).2.entries = c.entries := by
  unfold LruCache.get
  rw [h]

theorem LruCache_get_entries_some {c : LruCache K V} {k : K} {v : V}
    (h : lookup k c.entries = some v) :
    (c.get k).2.entries = (k, v) :: eraseKey k c.entries := by
  unfold LruCache.get
  rw [h]

open MemoryLruCache in
theorem get_snd_cur (m : MemoryLruCache K V) (key : K) :
    (MemoryLruCache.get m key).2.cur_size = m.cur_size := rfl

open MemoryLruCache in
theorem get_snd_max (m : MemoryLruCache K V) (key : K) :
    (MemoryLruCache.get m key).2.max_size = m.max_size := rfl

open MemoryLruCache in
theorem get_SizeInv {m : MemoryLruCache K V} {key : K} (h : SizeInv m) :
    SizeInv (MemoryLruCache.get m key).2 := by
  unfold SizeInv at h ⊢
  show m.cur_size = sizeSum (m.inner.get key).2.entries
  cases hl : lookup key m.inner.entries with
  | none =>
    rw [LruCache_get_entries_none hl]
    exact h
  | some v =>
    rw [LruCache_get_entries_some hl, sizeSum_cons]
    have := sizeSum_eraseKey hl
    simp only at this ⊢
    omega

open MemoryLruCache in
theorem with_mut_none {m : MemoryLruCache K V} {key : K} {f : V → V}
    (h : lookup key m.inner.entries = none) :
    MemoryLruCache.with_mut m key f = readjust_down m := by
  unfold MemoryLruCache.with_mut
  rw [h]

open MemoryLruCache in
theorem with_mut_some {m : MemoryLruCache K V} {key : K} {v : V} {f : V → V}
    (h : lookup key m.inner.entries = some v) :
    MemoryLruCache.with_mut m key f =
      readjust_down
        { m with
          inner := { m.inner with entries := (key, f v) :: eraseKey key m.inner.entries }
          cur_size := m.cur_size - resident_size v + resident_size (f v) } := by
  unfold MemoryLruCache.with_mut
  rw [h]

open MemoryLruCache in
theorem with_mut_pre_SizeInv {m : MemoryLruCache K V} {key : K} {v : V} (f : V → V)
    (hinv : SizeInv m) (h : lookup key m.inner.entries = some v) :
    SizeInv
      { m with
        inner := { m.inner with entries := (key, f v) :: eraseKey key m.inner.entries }
        cur_size := m.cur_size - resident_size v + resident_size (f v) } := by
  show m.cur_size - resident_size v + resident_size (f v) =
    sizeSum ((key, f v) :: eraseKey key m.inner.entries)
  rw [sizeSum_cons]
  have h1 := sizeSum_eraseKey h
  unfold SizeInv at hinv
  simp only at h1 ⊢
  omega

open MemoryLruCache in
theorem with_mut_SizeInv {m : MemoryLruCache K V} {key : K} {f : V → V}
    (hinv : SizeInv m) : SizeInv (MemoryLruCache.with_mut m key f) := by
  cases hl : lookup key m.inner.entries with
  | none =>
    rw [with_mut_none hl]
    exact readjust_down_SizeInv hinv
  | some v =>
    rw [with_mut_some hl]
    exact readjust_down_SizeInv (with_mut_pre_SizeInv f hinv hl)

theorem applyOp_SizeInv {m : MemoryLruCache K V} (op : Op K V) (h : SizeInv m) :
    SizeInv (applyOp m op) := by
  cases op with
  | insert k v => exact insert_SizeInv h
  | get k => exact get_SizeInv h
  | with_mut k f => exact with_mut_SizeInv h
  | peek k => exact h
  | contains k => exact h

open MemoryLruCache in
theorem applyOp_le {m : MemoryLruCache K V} (op : Op K V)
    (hinv : SizeInv m) (hle : m.cur_size ≤ m.max_size) :
    (applyOp m op).cur_size ≤ (applyOp m op).max_size := by
  cases op with
  | insert k v => exact insert_le hinv
  | get k => exact hle
  | with_mut k f =>
    show (MemoryLruCache.with_mut m k f).cur_size ≤ (MemoryLruCache.with_mut m k f).max_size
    cases hl : lookup k m.inner.entries with
    | none =>
      rw [with_mut_none hl]
      exact readjust_down_le hinv
    | some v =>
      rw [with_mut_some hl]
      exact readjust_down_le (with_mut_pre_SizeInv f hinv hl)
  | peek k => exact hle
  | contains k => exact hle

theorem runOps_SizeInv (ops : List (Op K V)) (m : MemoryLruCache K V)
    (h : SizeInv m) : SizeInv (runOps m ops) := by
  induction ops generalizing m with
  | nil => exact h
  | cons op rest ih => exact ih _ (applyOp_SizeInv op h)

theorem runOps_le (ops : List (Op K V)) (m : MemoryLruCache K V)
    (hinv : SizeInv m) (hle : m.cur_size ≤ m.max_size) :
    (runOps m ops).cur_size ≤ (runOps m ops).max_size := by
  induction ops generalizing m with
  | nil => exact hle
  | cons op rest ih => exact ih _ (applyOp_SizeInv op hinv) (applyOp_le op hinv hle)

theorem contains_eq (m : MemoryLruCache K V) (k : K) :
    MemoryLruCache.contains m k = (lookup k m.inner.entries).isSome := rfl

theorem peek_eq (m : MemoryLruCache K V) (k : K) :
    MemoryLruCache.peek m k = lookup k m.inner.entries := rfl

theorem lookup_take_cons_ne {k k2 : K} {v2 : V} {l : List (K × V)}
    (h : ¬ k2 = k) (n : Nat) :
    lookup k (((k2, v2) :: l).take n) = lookup k (l.take (n - 1)) := by
  cases n with
  | zero => rfl
  | succ n2 =>
    show lookup k ((k2, v2) :: l.take n2) = lookup k (l.take n2)
    simp [lookup, h]

theorem lookup_take_cons_self {k : K} {v : V} {l : List (K × V)} {n : Nat}
    (h : 1 ≤ n) : lookup k (((k, v) :: l).take n) = some v := by
  cases n with
  | zero => omega
  | succ n2 =>
    show lookup k ((k, v) :: l.take n2) = some v
    simp [lookup]

open MemoryLruCache in
theorem grow_id {m : MemoryLruCache K V} (h : ¬ m.inner.len = m.inner.cap) :
    grow_if_full m = m := by
  unfold MemoryLruCache.grow_if_full
  rw [if_neg h]

theorem put_fresh_notfull {c : LruCache K V} {k : K} (v : V)
    (hl : lookup k c.entries = none) (hc : ¬ c.entries.length = c.cap) :
    c.put k v = (none, { c with entries := (k, v) :: c.entries }) := by
  unfold LruCache.put
  rw [hl, if_neg hc]

open MemoryLruCache in
theorem insert_fresh {m : MemoryLruCache K V} {key : K} (val : V)
    (hl : lookup key m.inner.entries = none)
    (hc : ¬ m.inner.len = m.inner.cap) :
    ∃ n, (m.insert key val).inner.entries = ((key, val) :: m.inner.entries).take n ∧
      (m.insert key val).inner.cap = m.inner.cap ∧
      (m.insert key val).max_size = m.max_size := by
  have hpre : (insert_pre m key val).inner =
      { m.inner with entries := (key, val) :: m.inner.entries } := by
    unfold MemoryLruCache.insert_pre
    rw [apply_put_inner]
    show ((grow_if_full m).inner.put key val).2 = _
    rw [grow_id hc]
    rw [put_fresh_notfull val hl hc]
  obtain ⟨n, hn⟩ := readjust_down_take (insert_pre m key val)
  refine ⟨n, ?_, ?_, ?_⟩
  · show (readjust_down (insert_pre m key val)).inner.entries = _
    rw [hn, hpre]
  · show (readjust_down (insert_pre m key val)).inner.cap = _
    rw [readjust_down_cap, hpre]
  · show (readjust_down (insert_pre m key val)).max_size = _
    rw [readjust_down_max, insert_pre_max]

open MemoryLruCache in
theorem get_cap (m : MemoryLruCache K V) (key : K) :
    (MemoryLruCache.get m key).2.inner.cap = m.inner.cap :=
  LruCache_get_snd_cap m.inner key

open MemoryLruCache in
theorem with_mut_cap (m : MemoryLruCache K V) (key : K) (f : V → V) :
    (MemoryLruCache.with_mut m key f).inner.cap = m.inner.cap := by
  cases hl : lookup key m.inner.entries with
  | none =>
    rw [with_mut_none hl, readjust_down_cap]
  | some v =>
    rw [with_mut_some hl, readjust_down_cap]

open MemoryLruCache in
theorem apply_put_ok_true {m : MemoryLruCache K V} {key : K} {val : V}
    (h : m.cur_size = sizeSum m.inner.entries + resident_size val) :
    apply_put_ok m key val = true := by
  unfold apply_put_ok
  split
  · rename_i lru inner2 hp
    have hps := put_sizeSum m.inner key val
    rw [hp] at hps
    simp only [dispSize, sizeSum_cons] at hps
    rw [Bool.and_eq_true]
    constructor
    · apply decide_eq_true
      omega
    · apply readjust_ok_true
      show m.cur_size - resident_size lru = sizeSum inner2.entries
      omega
  · rename_i inner2 hp
    have hps := put_sizeSum m.inner key val
    rw [hp] at hps
    simp only [dispSize] at hps
    apply readjust_ok_true
    show m.cur_size = sizeSum inner2.entries
    omega

open MemoryLruCache in
theorem insert_ok_true {m : MemoryLruCache K V} {key : K} {val : V}
    (hinv : SizeInv m) : insert_ok m key val = true := by
  unfold insert_ok
  apply apply_put_ok_true
  show (grow_if_full m).cur_size + resident_size val =
    sizeSum (grow_if_full m).inner.entries + resident_size val
  rw [grow_cur, grow_entries]
  unfold SizeInv at hinv
  omega

open MemoryLruCache in
theorem with_mut_ok_true {m : MemoryLruCache K V} {key : K} {f : V → V}
    (hinv : SizeInv m) : with_mut_ok m key f = true := by
  unfold with_mut_ok
  split
  · rename_i hl
    exact readjust_ok_true hinv
  · rename_i v hl
    rw [Bool.and_eq_true]
    constructor
    · apply decide_eq_true
      have := lookup_size_le hl
      unfold SizeInv at hinv
      omega
    · exact readjust_ok_true (with_mut_pre_SizeInv f hinv hl)

end Lemmas

open MemoryLruCache

/-- C1 counterexample: with `max_size = 1`, inserting a single value of
resident size 2 leaves the cache empty with `current_size() = 0`: the
eviction loop also pops the entry it just inserted, so the cache does not
retain the oversized entry and the overshoot does not persist. -/
theorem C1_counterexample :
    MemoryLruCache.peek
        (MemoryLruCache.insert (MemoryLruCache.new 1 : MemoryLruCache Nat (List Nat)) 0 [5, 5])
        0 = none ∧
      (MemoryLruCache.insert (MemoryLruCache.new 1 : MemoryLruCache Nat (List Nat))
          0 [5, 5]).inner.entries = [] ∧
      MemoryLruCache.current_size
        (MemoryLruCache.insert (MemoryLruCache.new 1 : MemoryLruCache Nat (List Nat))
          0 [5, 5]) = 0 :=
  ⟨rfl, rfl, rfl⟩

/-- C1 (amended): when a single inserted value's own `resident_size()`
exceeds `max_size`, the eviction pass does not stop at that entry: from
any state satisfying invariant I1, `insert` leaves the cache empty with
`current_size() = 0`, and the inserted key is not obtainable via `peek`. -/
theorem C1_oversized_insert_empties (K V : Type) [DecidableEq K] [ResidentSize V]
    (m : MemoryLruCache K V) (key : K) (val : V)
    (hinv : SizeInv m) (hover : m.max_size < resident_size val) :
    (m.insert key val).inner.entries = [] ∧
      MemoryLruCache.current_size (m.insert key val) = 0 ∧
      MemoryLruCache.peek (m.insert key val) key = none := by
  obtain ⟨tl, htl⟩ := insert_pre_head m key val
  have h := readjust_down_evicts_all (insert_pre_SizeInv hinv) htl
    (by rw [insert_pre_max]; exact hover)
  refine ⟨h.1, h.2, ?_⟩
  rw [peek_eq]
  show lookup key (readjust_down (insert_pre m key val)).inner.entries = none
  rw [h.1]
  rfl

/-- Witness for C1 (amended): a concrete oversized insert into a state
satisfying invariant I1. -/
theorem C1_witness :
    SizeInv (MemoryLruCache.new 1 : MemoryLruCache Nat (List Nat)) ∧
      (MemoryLruCache.new 1 : MemoryLruCache Nat (List Nat)).max_size <
        resident_size [5, 5] ∧
      (((MemoryLruCache.new 1 : MemoryLruCache Nat (List Nat)).insert
          0 [5, 5]).inner.entries = [] ∧
        MemoryLruCache.current_size
          ((MemoryLruCache.new 1 : MemoryLruCache Nat (List Nat)).insert 0 [5, 5]) = 0 ∧
        MemoryLruCache.peek
          ((MemoryLruCache.new 1 : MemoryLruCache Nat (List Nat)).insert 0 [5, 5]) 0 = none) :=
  ⟨rfl, by decide,
    C1_oversized_insert_empties Nat (List Nat) (MemoryLruCache.new 1) 0 [5, 5] rfl (by decide)⟩

/-- C2 counterexample: `with_mut` on the sole (present) key, growing the
value past `max_size`, evicts the just-mutated entry itself: afterwards
the key is absent and the store is empty, contradicting the claim that
eviction within the same call removes only other entries. -/
theorem C2_counterexample :
    MemoryLruCache.contains
        (MemoryLruCache.with_mut
          (MemoryLruCache.insert (MemoryLruCache.new 3 : MemoryLruCache Nat (List Nat)) 0 [7])
          0 (fun _ => [1, 2, 3, 4, 5])) 0 = false ∧
      (MemoryLruCache.with_mut
          (MemoryLruCache.insert (MemoryLruCache.new 3 : MemoryLruCache Nat (List Nat)) 0 [7])
          0 (fun _ => [1, 2, 3, 4, 5])).inner.entries = [] :=
  ⟨rfl, rfl⟩

/-- C2 (amended): `with_mut` on a present key adjusts `cur_size` by
exactly the size delta (subtract old, add new) before the eviction pass;
the pass evicts least-recently-used entries first, so the just-mutated
entry — promoted to most-recently-used — survives whenever its new
resident size fits `max_size` by itself, and is evicted (leaving the
cache empty) exactly when its new size alone exceeds `max_size`. -/
theorem C2_with_mut_accounting (K V : Type) [DecidableEq K] [ResidentSize V]
    (m : MemoryLruCache K V) (key : K) (v : V) (f : V → V)
    (hinv : SizeInv m) (hl : lookup key m.inner.entries = some v) :
    (MemoryLruCache.with_mut m key f =
      readjust_down
        { m with
          inner := { m.inner with entries := (key, f v) :: eraseKey key m.inner.entries }
          cur_size := m.cur_size - resident_size v + resident_size (f v) }) ∧
    (resident_size (f v) ≤ m.max_size →
      ∃ n, (MemoryLruCache.with_mut m key f).inner.entries =
        (key, f v) :: (eraseKey key m.inner.entries).take n) ∧
    (m.max_size < resident_size (f v) →
      (MemoryLruCache.with_mut m key f).inner.entries = [] ∧
        (MemoryLruCache.with_mut m key f).cur_size = 0) := by
  refine ⟨with_mut_some hl, ?_, ?_⟩
  · intro hfit
    rw [with_mut_some hl]
    exact readjust_down_keeps_head (with_mut_pre_SizeInv f hinv hl) rfl hfit
  · intro hover
    rw [with_mut_some hl]
    exact readjust_down_evicts_all (with_mut_pre_SizeInv f hinv hl) rfl hover

/-- Witness for C2 (amended): the exact pre-eviction accounting on a
concrete one-entry state. -/
theorem C2_witness :
    SizeInv exM1 ∧ lookup 0 exM1.inner.entries = some [7] ∧
      MemoryLruCache.with_mut exM1 0 (fun _ => [2, 2]) =
        readjust_down (⟨⟨[(0, [2, 2])], 4⟩, 2, 10⟩ : MemoryLruCache Nat (List Nat)) :=
  ⟨rfl, rfl,
    (C2_with_mut_accounting Nat (List Nat) exM1 0 [7] (fun _ => [2, 2]) rfl rfl).1⟩

/-- C3: for every sequence of public operations starting from `new`
(value mutation only through `with_mut`, as encoded by `Op`), after each
operation returns, `current_size` equals the sum of `resident_size()`
over all entries in the store — invariant I1. Every prefix of a sequence
is itself a sequence, so this covers every intermediate state. -/
theorem C3_accounting_invariant (K V : Type) [DecidableEq K] [ResidentSize V]
    (max_size : Nat) (ops : List (Op K V)) :
    SizeInv (runOps (MemoryLruCache.new max_size) ops) :=
  runOps_SizeInv ops _ rfl

/-- C4: after any sequence of public operations starting from `new`,
`current_size ≤ max_size` or some stored entry alone exceeds the budget;
in fact the first disjunct always holds on reachable states (the eviction
loop empties the store rather than stopping at an oversized entry). -/
theorem C4_budget_invariant (K V : Type) [DecidableEq K] [ResidentSize V]
    (max_size : Nat) (ops : List (Op K V)) :
    MemoryLruCache.current_size (runOps (MemoryLruCache.new max_size) ops) ≤
        (runOps (MemoryLruCache.new max_size) ops).max_size ∨
      ∃ e ∈ (runOps (MemoryLruCache.new max_size) ops).inner.entries,
        (runOps (MemoryLruCache.new max_size) ops).max_size < resident_size e.2 :=
  Or.inl (runOps_le ops _ rfl (Nat.zero_le _))

/-- C5: the eviction pass `readjust_down` performs exactly the claimed
loop: it is the identity when `current_size ≤ max_size`; when over budget
it pops the least-recently-used entry, subtracts that entry's resident
size, and continues; and when the store reports nothing to pop
(equivalently, the store is empty) it stops even though the budget is
still exceeded. -/
theorem C5_eviction_loop_shape (K V : Type) [DecidableEq K] [ResidentSize V]
    (m : MemoryLruCache K V) :
    (m.cur_size ≤ m.max_size → readjust_down m = m) ∧
      (m.inner.pop_lru = none ↔ m.inner.entries = []) ∧
      (m.max_size < m.cur_size → m.inner.pop_lru = none → readjust_down m = m) ∧
      (∀ (k : K) (v : V) (inner2 : LruCache K V),
        m.max_size < m.cur_size → m.inner.pop_lru = some ((k, v), inner2) →
        readjust_down m =
          readjust_down
            { m with inner := inner2, cur_size := m.cur_size - resident_size v }) := by
  refine ⟨fun h => readjust_loop_id _ _ h, pop_lru_none, ?_, ?_⟩
  · intro h1 h2
    show readjust_loop m.inner.entries.length m = m
    rw [pop_lru_none.mp h2]
    rfl
  · intro k v inner2 h1 hp
    obtain ⟨hg, hE2, _⟩ := pop_lru_some hp
    have hne : m.inner.entries ≠ [] := by
      intro h0
      rw [h0] at hg
      simp at hg
    cases hE : m.inner.entries with
    | nil => exact absurd hE hne
    | cons a t =>
      have hlen2 : inner2.entries.length = t.length := by
        rw [hE2, hE, List.length_dropLast]
        simp
      show readjust_loop m.inner.entries.length m = readjust_loop inner2.entries.length
        { m with inner := inner2, cur_size := m.cur_size - resident_size v }
      rw [hlen2, hE]
      show readjust_loop (t.length + 1) m = readjust_loop t.length
        { m with inner := inner2, cur_size := m.cur_size - resident_size v }
      conv_lhs => unfold MemoryLruCache.readjust_loop
      rw [if_neg (by omega : ¬ m.cur_size ≤ m.max_size), hp]

/-- Witness for C5: each branch of the loop characterisation exercised on
a concrete state. -/
theorem C5_witness :
    (MemoryLruCache.new 0 : MemoryLruCache Nat (List Nat)).cur_size ≤
        (MemoryLruCache.new 0 : MemoryLruCache Nat (List Nat)).max_size ∧
      readjust_down (MemoryLruCache.new 0 : MemoryLruCache Nat (List Nat)) =
        MemoryLruCache.new 0 ∧
      readjust_down exOver = exOver ∧
      readjust_down exPop = readjust_down (⟨⟨[], 4⟩, 4, 1⟩ : MemoryLruCache Nat (List Nat)) := by
  refine ⟨by decide, (C5_eviction_loop_shape Nat (List Nat) _).1 (by decide), ?_, ?_⟩
  · exact (C5_eviction_loop_shape Nat (List Nat) exOver).2.2.1 (by decide) rfl
  · exact (C5_eviction_loop_shape Nat (List Nat) exPop).2.2.2 0 [9] ⟨[], 4⟩ (by decide) rfl

/-- C6: recency ordering. Concretely (scenario 2): budget 8, five 2-byte
inserts under keys 1..5 leave exactly keys 2,3,4,5, key 1 absent,
`current_size() = 8`, and `get 2` returns its value. In general, for
three distinct keys inserted in order with no intervening `get`, survival
is suffix-closed: if the first key is still present so is the second, and
if the second is present so is the third — A is evicted before B and B
before C. -/
theorem C6_recency_eviction_order :
    (MemoryLruCache.contains scenario2 1 = false ∧
      MemoryLruCache.contains scenario2 2 = true ∧
      MemoryLruCache.contains scenario2 3 = true ∧
      MemoryLruCache.contains scenario2 4 = true ∧
      MemoryLruCache.contains scenario2 5 = true ∧
      MemoryLruCache.current_size scenario2 = 8 ∧
      (MemoryLruCache.get scenario2 2).1 = some [2, 2]) ∧
    ∀ (K V : Type) [DecidableEq K] [ResidentSize V] (max_size : Nat)
      (a b c : K) (va vb vc : V), ¬ a = b → ¬ a = c → ¬ b = c →
      (MemoryLruCache.contains
          ((((MemoryLruCache.new max_size : MemoryLruCache K V).insert a va).insert
            b vb).insert c vc) a = true →
        MemoryLruCache.contains
          ((((MemoryLruCache.new max_size : MemoryLruCache K V).insert a va).insert
            b vb).insert c vc) b = true) ∧
      (MemoryLruCache.contains
          ((((MemoryLruCache.new max_size : MemoryLruCache K V).insert a va).insert
            b vb).insert c vc) b = true →
        MemoryLruCache.contains
          ((((MemoryLruCache.new max_size : MemoryLruCache K V).insert a va).insert
            b vb).insert c vc) c = true) := by
  constructor
  · exact ⟨rfl, rfl, rfl, rfl, rfl, rfl, rfl⟩
  · intro K V instK instV maxs a b c va vb vc hab hac hbc
    have hX : (MemoryLruCache.new maxs : MemoryLruCache K V).inner.entries = [] := rfl
    obtain ⟨n1, hE1, hcap1, hmax1⟩ :=
      insert_fresh va
        (show lookup a (MemoryLruCache.new maxs : MemoryLruCache K V).inner.entries = none
          from rfl)
        ((by decide : ¬ (0 : Nat) = 4))
    rw [hX] at hE1
    have hlb : lookup b
        ((MemoryLruCache.new maxs : MemoryLruCache K V).insert a va).inner.entries = none := by
      rw [hE1, lookup_take_cons_ne hab n1, List.take_nil]
      rfl
    have hc1 : ¬ ((MemoryLruCache.new maxs : MemoryLruCache K V).insert a va).inner.len =
        ((MemoryLruCache.new maxs : MemoryLruCache K V).insert a va).inner.cap := by
      intro h
      rw [hcap1] at h
      have h5 : ((MemoryLruCache.new maxs : MemoryLruCache K V).insert
          a va).inner.entries.length = 4 := h
      rw [hE1, List.length_take] at h5
      simp at h5
      omega
    obtain ⟨n2, hE2, hcap2, hmax2⟩ := insert_fresh vb hlb hc1
    rw [hE1] at hE2
    have hlc : lookup c
        ((((MemoryLruCache.new maxs : MemoryLruCache K V).insert a va).insert
          b vb)).inner.entries = none := by
      rw [hE2, lookup_take_cons_ne hbc n2, List.take_take,
        lookup_take_cons_ne hac (min (n2 - 1) n1), List.take_nil]
      rfl
    have hc2 : ¬ (((MemoryLruCache.new maxs : MemoryLruCache K V).insert a va).insert
        b vb).inner.len =
        (((MemoryLruCache.new maxs : MemoryLruCache K V).insert a va).insert
          b vb).inner.cap := by
      intro h
      rw [hcap2, hcap1] at h
      have h5 : ((((MemoryLruCache.new maxs : MemoryLruCache K V).insert a va).insert
          b vb)).inner.entries.length = 4 := h
      rw [hE2, List.length_take, List.length_cons, List.length_take] at h5
      simp at h5
      omega
    obtain ⟨n3, hE3, hcap3, hmax3⟩ := insert_fresh vc hlc hc2
    rw [hE2] at hE3
    have hab2 : ¬ b = a := fun h => hab h.symm
    have hac2 : ¬ c = a := fun h => hac h.symm
    have hbc2 : ¬ c = b := fun h => hbc h.symm
    constructor
    · intro ha
      rw [contains_eq, hE3, lookup_take_cons_ne hac2 n3, List.take_take,
        lookup_take_cons_ne hab2 (min (n3 - 1) n2), List.take_take] at ha
      cases hq : min (min (n3 - 1) n2 - 1) n1 with
      | zero =>
        rw [hq] at ha
        simp [lookup] at ha
      | succ q =>
        have hb2 : 1 ≤ min (n3 - 1) n2 := by omega
        rw [contains_eq, hE3, lookup_take_cons_ne hbc2 n3, List.take_take,
          lookup_take_cons_self hb2]
        rfl
    · intro hb
      cases hn3 : n3 with
      | zero =>
        rw [contains_eq, hE3, hn3] at hb
        simp [lookup] at hb
      | succ q3 =>
        rw [contains_eq, hE3, hn3, lookup_take_cons_self (by omega : 1 ≤ q3 + 1)]
        rfl

/-- Witness for C6: the general suffix-closure statement instantiated on
three concrete fresh keys with a 1-byte budget. -/
theorem C6_witness :
    ¬ (0 : Nat) = 1 ∧ ¬ (0 : Nat) = 2 ∧ ¬ (1 : Nat) = 2 ∧
      ((MemoryLruCache.contains exChain 0 = true →
          MemoryLruCache.contains exChain 1 = true) ∧
        (MemoryLruCache.contains exChain 1 = true →
          MemoryLruCache.contains exChain 2 = true)) :=
  ⟨by decide, by decide, by decide,
    C6_recency_eviction_order.2 Nat (List Nat) 1 0 1 2 [0] [1] [2]
      (by decide) (by decide) (by decide)⟩

/-- C7: the store's item-count capacity starts at 4 (`INITIAL_CAPACITY`);
`insert` doubles it with saturating multiplication exactly when the
store's length has reached the capacity at the start of the call and
leaves it unchanged otherwise; no public operation shrinks it (for any
representable capacity, which every reachable capacity is); and doubling
a capacity already at `USIZE_MAX` saturates there instead of wrapping. -/
theorem C7_capacity_growth :
    (∀ (K V : Type) [DecidableEq K] [ResidentSize V] (max_size : Nat),
      (MemoryLruCache.new max_size : MemoryLruCache K V).inner.cap = INITIAL_CAPACITY ∧
        INITIAL_CAPACITY = 4) ∧
      (∀ (K V : Type) [DecidableEq K] [ResidentSize V]
        (m : MemoryLruCache K V) (key : K) (val : V),
        (m.insert key val).inner.cap =
          if m.inner.len = m.inner.cap then saturating_mul m.inner.cap 2
          else m.inner.cap) ∧
      (∀ (K V : Type) [DecidableEq K] [ResidentSize V]
        (m : MemoryLruCache K V) (op : Op K V),
        m.inner.cap ≤ USIZE_MAX → m.inner.cap ≤ (applyOp m op).inner.cap) ∧
      (∀ (K V : Type) [DecidableEq K] [ResidentSize V]
        (m : MemoryLruCache K V) (key : K) (val : V),
        m.inner.cap = USIZE_MAX → (m.insert key val).inner.cap = USIZE_MAX) := by
  refine ⟨fun K V _ _ maxs => ⟨rfl, rfl⟩, fun K V _ _ m key val => insert_cap m key val, ?_, ?_⟩
  · intro K V _ _ m op hcap
    cases op with
    | insert k v =>
      show m.inner.cap ≤ (m.insert k v).inner.cap
      rw [insert_cap]
      by_cases h : m.inner.len = m.inner.cap
      · rw [if_pos h]
        unfold saturating_mul
        omega
      · rw [if_neg h]
    | get k =>
      show m.inner.cap ≤ (MemoryLruCache.get m k).2.inner.cap
      rw [get_cap]
    | with_mut k f =>
      show m.inner.cap ≤ (MemoryLruCache.with_mut m k f).inner.cap
      rw [with_mut_cap]
    | peek k => exact le_refl _
    | contains k => exact le_refl _
  · intro K V _ _ m key val h
    rw [insert_cap, h]
    by_cases hc : m.inner.len = USIZE_MAX
    · rw [if_pos hc]
      unfold saturating_mul
      omega
    · rw [if_neg hc]

/-- Witness for C7: capacity monotonicity on a fresh cache, and the
saturating branch on a store whose capacity sits at `USIZE_MAX`. -/
theorem C7_witness :
    (MemoryLruCache.new 8 : MemoryLruCache Nat (List Nat)).inner.cap ≤ USIZE_MAX ∧
      (MemoryLruCache.new 8 : MemoryLruCache Nat (List Nat)).inner.cap ≤
        (applyOp (MemoryLruCache.new 8 : MemoryLruCache Nat (List Nat))
          (Op.insert 0 [1])).inner.cap ∧
      exMaxCap.inner.cap = USIZE_MAX ∧
      (exMaxCap.insert 0 [1]).inner.cap = USIZE_MAX :=
  ⟨by decide,
    C7_capacity_growth.2.2.1 Nat (List Nat) (MemoryLruCache.new 8) (Op.insert 0 [1])
      (by decide),
    rfl, C7_capacity_growth.2.2.2 Nat (List Nat) exMaxCap 0 [1] rfl⟩

/-- C8 counterexample: `with_mut` — neither `get` nor `insert` — promotes
the key it mutates. After inserting keys 1 then 2, key 1 is
least-recently-used; a `with_mut` on key 1 with the identity mutator
moves it to most-recently-used, so operations other than `get` and
`insert` do change recency order, refuting "only get and insert
promote". -/
theorem C8_counterexample :
    (MemoryLruCache.with_mut
        (MemoryLruCache.insert
          (MemoryLruCache.insert (MemoryLruCache.new 8 : MemoryLruCache Nat (List Nat))
            1 [0])
          2 [0])
        1 (fun v => v)).inner.entries.map Prod.fst = [1, 2] ∧
      (MemoryLruCache.insert
          (MemoryLruCache.insert (MemoryLruCache.new 8 : MemoryLruCache Nat (List Nat))
            1 [0])
          2 [0]).inner.entries.map Prod.fst = [2, 1] :=
  ⟨rfl, rfl⟩

/-- C8 (amended): `get` changes neither `current_size` nor `max_size` and
only reorders; `peek` and `contains` take the cache by shared reference
and leave it entirely unchanged; promotion to most-recently-used is
performed by `get` (shown by its move-to-front behaviour) and also by
`with_mut`, whose promoting mutable lookup moves the mutated key to the
front. -/
theorem C8_read_only_accessors :
    (∀ (K V : Type) [DecidableEq K] [ResidentSize V]
      (m : MemoryLruCache K V) (key : K),
      (MemoryLruCache.get m key).2.cur_size = m.cur_size ∧
        (MemoryLruCache.get m key).2.max_size = m.max_size) ∧
      (∀ (K V : Type) [DecidableEq K] [ResidentSize V]
        (m : MemoryLruCache K V) (key : K),
        applyOp m (Op.peek key) = m ∧ applyOp m (Op.contains key) = m) ∧
      (∀ (K V : Type) [DecidableEq K] [ResidentSize V]
        (m : MemoryLruCache K V) (key : K) (v : V),
        lookup key m.inner.entries = some v →
        (MemoryLruCache.get m key).2.inner.entries =
          (key, v) :: eraseKey key m.inner.entries) ∧
      (∀ (K V : Type) [DecidableEq K] [ResidentSize V]
        (m : MemoryLruCache K V) (key : K) (v : V) (f : V → V),
        SizeInv m → lookup key m.inner.entries = some v →
        resident_size (f v) ≤ m.max_size →
        (MemoryLruCache.with_mut m key f).inner.entries.head? = some (key, f v)) := by
  refine ⟨fun K V _ _ m key => ⟨rfl, rfl⟩, fun K V _ _ m key => ⟨rfl, rfl⟩, ?_, ?_⟩
  · intro K V _ _ m key v h
    exact LruCache_get_entries_some h
  · intro K V _ _ m key v f hinv hl hfit
    rw [with_mut_some hl]
    obtain ⟨n, hn⟩ := readjust_down_keeps_head (with_mut_pre_SizeInv f hinv hl) rfl hfit
    rw [hn]
    rfl

/-- Witness for C8 (amended): get-promotion and with_mut-promotion on a
concrete one-entry state. -/
theorem C8_witness :
    lookup 0 exM1.inner.entries = some [7] ∧ SizeInv exM1 ∧
      resident_size ((fun _ => [2, 2]) [7]) ≤ exM1.max_size ∧
      (MemoryLruCache.get exM1 0).2.inner.entries =
        (0, [7]) :: eraseKey 0 exM1.inner.entries ∧
      (MemoryLruCache.with_mut exM1 0 (fun _ => [2, 2])).inner.entries.head? =
        some (0, [2, 2]) := by
  refine ⟨rfl, rfl, by decide, ?_, ?_⟩
  · exact C8_read_only_accessors.2.2.1 Nat (List Nat) exM1 0 [7] rfl
  · exact C8_read_only_accessors.2.2.2 Nat (List Nat) exM1 0 [7] (fun _ => [2, 2])
      rfl rfl (by decide)

/-- C9: on any state satisfying invariant I1, none of the subtractions
from `cur_size` performed by `insert` (displaced-value subtraction),
`with_mut` (previous-size subtraction), or the eviction pass
(popped-entry subtractions) underflows: the instrumented versions of the
three code paths, which check subtrahend ≤ minuend at every subtraction
the source performs, all return `true`. -/
theorem C9_no_underflow (K V : Type) [DecidableEq K] [ResidentSize V]
    (m : MemoryLruCache K V) (key : K) (val : V) (f : V → V)
    (hinv : SizeInv m) :
    insert_ok m key val = true ∧ with_mut_ok m key f = true ∧
      readjust_ok m = true :=
  ⟨insert_ok_true hinv, with_mut_ok_true hinv, readjust_ok_true hinv⟩

/-- Witness for C9: the instrumented code paths on a concrete state
satisfying invariant I1. -/
theorem C9_witness :
    SizeInv exM1 ∧
      (insert_ok exM1 3 [1] = true ∧ with_mut_ok exM1 0 (fun v => v) = true ∧
        readjust_ok exM1 = true) :=
  ⟨rfl, C9_no_underflow Nat (List Nat) exM1 3 [1] (fun v => v) rfl⟩

/-- C10: from any state satisfying invariant I1, inserting a value that
fits the budget by itself (`resident_size val ≤ max_size`) leaves the key
present and `peek` returns exactly the inserted value: the eviction pass
never removes the entry inserted by the same call when that entry fits
on its own. -/
theorem C10_fitting_insert_retained (K V : Type) [DecidableEq K] [ResidentSize V]
    (m : MemoryLruCache K V) (key : K) (val : V)
    (hinv : SizeInv m) (hfit : resident_size val ≤ m.max_size) :
    MemoryLruCache.contains (m.insert key val) key = true ∧
      MemoryLruCache.peek (m.insert key val) key = some val := by
  obtain ⟨tl, htl⟩ := insert_pre_head m key val
  obtain ⟨n, hn⟩ := readjust_down_keeps_head (insert_pre_SizeInv hinv) htl
    (by rw [insert_pre_max]; exact hfit)
  constructor
  · rw [contains_eq]
    show (lookup key (readjust_down (insert_pre m key val)).inner.entries).isSome = true
    rw [hn]
    simp [lookup]
  · rw [peek_eq]
    show lookup key (readjust_down (insert_pre m key val)).inner.entries = some val
    rw [hn]
    simp [lookup]

/-- Witness for C10: a fitting insert into a concrete I1 state. -/
theorem C10_witness :
    SizeInv exM1 ∧ resident_size [3, 3] ≤ exM1.max_size ∧
      (MemoryLruCache.contains (exM1.insert 5 [3, 3]) 5 = true ∧
        MemoryLruCache.peek (exM1.insert 5 [3, 3]) 5 = some [3, 3]) :=
  ⟨rfl, by decide,
    C10_fitting_insert_retained Nat (List Nat) exM1 5 [3, 3] rfl (by decide)⟩

end MemoryLru
